import Mathlib

/-!
Verification of the extractive PDF summarizer's core functions.

The definitions below are a shallow embedding of the functions in
`scripts/pdf_summary_annotator.py`: sentence splitting, word tokenization,
frequency scoring, stable top-sentence and top-keyword selection, summary
building, and note-box placement.  Strings are Lean `String`s (lists of
characters), Python floats are modelled by `ℚ`, Python `int` by `ℤ`, and
`collections.Counter` by the counting function together with the list of
keys in first-occurrence order.  Python's stable `list.sort` (and the
documented stable behaviour of `heapq.nlargest` used by
`Counter.most_common`) is embedded as a stable insertion sort.
-/

namespace PdfSummary

/-- The apostrophe character, written via its code point. -/
def apostrophe : Char := Char.ofNat 39

/-- Whitespace characters of the regex whitespace class (ASCII range),
    as used by the strip and the whitespace-collapsing substitution. -/
def pyIsSpace (c : Char) : Bool :=
  c == ' ' || c == '\t' || c == '\n' || c == '\r' || c == '\x0b' || c == '\x0c'

/-- Sentence-terminal punctuation recognized by the sentence splitter. -/
def isTermChar (c : Char) : Bool := c == '.' || c == '!' || c == '?'

/-- ASCII lower-casing, as str.lower acts on ASCII letters. -/
def lowerChar (c : Char) : Char :=
  if 65 ≤ c.toNat ∧ c.toNat ≤ 90 then Char.ofNat (c.toNat + 32) else c

/-- Characters matched by the token character class: ASCII letters and the
    apostrophe. -/
def isWordChar (c : Char) : Bool :=
  (65 ≤ c.toNat && c.toNat ≤ 90) || (97 ≤ c.toNat && c.toNat ≤ 122) || c.toNat == 39

/-- The stop-word set of the script. -/
def STOPWORDS : List String :=
  ["a", "an", "and", "are", "as", "at", "be", "but", "by", "for", "from",
   "has", "have", "if", "in", "into", "is", "it", "its", "no", "not", "of",
   "on", "or", "such", "that", "the", "their", "then", "there", "these",
   "they", "this", "to", "was", "were", "will", "with", "we", "you", "your"]

/-- Collect maximal runs of token characters from a character list; runs of
    length at least two are kept, matching findall of the token pattern.
    `cur` is the run currently being read. -/
def tokensGo (cur : List Char) : List Char → List (List Char)
  | [] => if 2 ≤ cur.length then [cur] else []
  | c :: rest =>
    if isWordChar c then tokensGo (cur ++ [c]) rest
    else (if 2 ≤ cur.length then [cur] else []) ++ tokensGo [] rest

/-- Embedding of tokenize_words: lower-case the text, extract maximal runs of letters and
    apostrophes of length at least two, and drop stop words. -/
def tokenize_words (text : String) : List String :=
  ((tokensGo [] (text.data.map lowerChar)).map (fun l => String.mk l)).filter
    (fun w => !(STOPWORDS.contains w))

/-- Remove trailing whitespace characters. -/
def stripEnd : List Char → List Char
  | [] => []
  | c :: rest =>
    match stripEnd rest with
    | [] => if pyIsSpace c then [] else [c]
    | r => c :: r

/-- Embedding of str.strip: remove leading and trailing whitespace. -/
def pyStrip (l : List Char) : List Char := stripEnd (l.dropWhile pyIsSpace)

/-- Replace every maximal whitespace run by a single space, embedding the
    whitespace-collapsing regex substitution. -/
def collapseWs : List Char → List Char
  | [] => []
  | [c] => [if pyIsSpace c then ' ' else c]
  | c :: d :: rest =>
    if pyIsSpace c && pyIsSpace d then collapseWs (d :: rest)
    else (if pyIsSpace c then ' ' else c) :: collapseWs (d :: rest)

/-- Sentence splitter core: split at whitespace runs that immediately follow
    terminal punctuation, dropping the run.  `acc` is the reversed current
    piece and `delim` records being inside a separating whitespace run. -/
def goSplit (acc : List Char) (delim : Bool) : List Char → List (List Char)
  | [] => [acc.reverse]
  | c :: rest =>
    if pyIsSpace c then
      if delim then goSplit acc true rest
      else
        match acc with
        | [] => goSplit [c] false rest
        | p :: _ =>
          if isTermChar p then acc.reverse :: goSplit [] true rest
          else goSplit (c :: acc) false rest
    else goSplit (c :: acc) false rest

/-- Embedding of split_sentences: strip, collapse whitespace, return no sentence for an
    empty result, otherwise split after terminal punctuation. -/
def split_sentences (text : String) : List String :=
  let cleaned := collapseWs (pyStrip text.data)
  if cleaned = [] then [] else (goSplit [] false cleaned).map (fun l => String.mk l)

/-- Embedding of str.join with a separator, as Python's join over a list of strings. -/
def pyJoin (sep : String) : List String → String
  | [] => ""
  | x :: rest => rest.foldl (fun acc y => acc ++ sep ++ y) x

/-- The score of one sentence: mean frequency of its content words, zero when
    it has none. -/
def sentenceScore (word_scores : String → Nat) (sentence : String) : ℚ :=
  let words := tokenize_words sentence
  if words = [] then 0
  else ((words.map (fun w => (word_scores w : ℚ))).sum) / (words.length : ℚ)

/-- Embedding of score_sentences: the appending loop of the source, one pair per sentence. -/
def score_sentences (sentences : List String) (word_scores : String → Nat) :
    List (String × ℚ) :=
  sentences.foldl
    (fun scored sentence =>
      let words := tokenize_words sentence
      if words = [] then scored ++ [(sentence, 0)]
      else
        scored ++
          [(sentence, ((words.map (fun w => (word_scores w : ℚ))).sum) / (words.length : ℚ))])
    []

/-- Insert an element into a list in front of the first element whose key is
    not larger, the insertion step of a stable descending sort. -/
def ordInsert {α β : Type} [LinearOrder β] (key : α → β) (a : α) : List α → List α
  | [] => [a]
  | b :: l => if key b ≤ key a then a :: b :: l else b :: ordInsert key a l

/-- Stable descending sort by a key, embedding Python's stable list.sort with
    reverse=True. -/
def sortDescBy {α β : Type} [LinearOrder β] (key : α → β) : List α → List α
  | [] => []
  | a :: l => ordInsert key a (sortDescBy key l)

/-- Python slicing up to an int bound: a nonnegative bound takes an initial segment, a
    negative bound removes elements from the end. -/
def pySliceTo {α : Type} (l : List α) (k : ℤ) : List α :=
  if 0 ≤ k then l.take k.toNat else l.take ((l.length : ℤ) + k).toNat

/-- Embedding of top_sentences: score, sort stably by score descending, slice, keep texts. -/
def top_sentences (sentences : List String) (word_scores : String → Nat) (limit : ℤ) :
    List String :=
  (pySliceTo (sortDescBy (fun p => p.2) (score_sentences sentences word_scores)) limit).map
    (fun p => p.1)

/-- The distinct words of a list in first-occurrence order: the key order of
    the Counter built from the list. -/
def dedupKeys : List String → List String
  | [] => []
  | w :: rest => w :: ((dedupKeys rest).filter (fun x => x != w))

/-- The (word, occurrence count) items of the Counter of a word list, in
    first-occurrence key order. -/
def counterItems (words : List String) : List (String × Nat) :=
  (dedupKeys words).map (fun w => (w, words.count w))

/-- Embedding of Counter.most_common: stable descending sort of the counter items
    truncated to n entries; a non-positive n yields the empty list. -/
def most_common (words : List String) (n : ℤ) : List (String × Nat) :=
  (sortDescBy (fun p => p.2) (counterItems words)).take n.toNat

/-- Embedding of top_keywords: the words of the most common counter items. -/
def top_keywords (words : List String) (limit : ℤ) : List String :=
  (most_common words limit).map (fun p => p.1)

/-- A per-page note: page number, best sentence (or sentinel), keywords. -/
structure PageNote where
  page : Nat
  summary : String
  keywords : List String
  deriving DecidableEq, Repr

/-- The structured summary returned by build_summary. -/
structure Summary where
  overall_summary : List String
  key_points : List String
  page_notes : List PageNote
  deriving DecidableEq, Repr

/-- The note of one page, computed from that page's text alone. -/
def pageNoteFor (keyword_count : ℤ) (index : Nat) (text : String) : PageNote :=
  let page_sentences := split_sentences text
  let page_words := tokenize_words text
  let page_scores : String → Nat := fun w => page_words.count w
  let page_summary := top_sentences page_sentences page_scores 1
  { page := index
    summary := page_summary.headD "(No extractable text)"
    keywords := top_keywords page_words (min 4 keyword_count) }

/-- The per-page loop of build_summary, enumerating pages from a start index. -/
def pageNotesFrom (keyword_count : ℤ) (index : Nat) : List String → List PageNote
  | [] => []
  | text :: rest =>
    pageNoteFor keyword_count index text :: pageNotesFrom keyword_count (index + 1) rest

/-- Embedding of build_summary: document-wide summary and key points, then per-page notes. -/
def build_summary (page_texts : List String) (summary_sentences keyword_count : ℤ) :
    Summary :=
  let full_text := pyJoin "\n" page_texts
  let sentences := split_sentences full_text
  let full_words := tokenize_words full_text
  let word_scores : String → Nat := fun w => full_words.count w
  { overall_summary := top_sentences sentences word_scores summary_sentences
    key_points := top_keywords full_words keyword_count
    page_notes := pageNotesFrom keyword_count 1 page_texts }

/-- Embedding of calculate_note_box: corner anchor placement with an inward margin;
    unrecognized positions fall back to the top-right corner. -/
def calculate_note_box (page_width page_height box_width box_height margin : ℚ)
    (position : String) : ℚ × ℚ :=
  if position = "top-left" then (margin, page_height - box_height - margin)
  else if position = "top-right" then
    (page_width - box_width - margin, page_height - box_height - margin)
  else if position = "bottom-left" then (margin, margin)
  else if position = "bottom-right" then (page_width - box_width - margin, margin)
  else (page_width - box_width - margin, page_height - box_height - margin)

/-! ### Stable descending sort: basic lemmas -/

section SortLemmas

variable {α β : Type} [LinearOrder β] (key : α → β)

theorem length_ordInsert (a : α) (l : List α) :
    (ordInsert key a l).length = l.length + 1 := by
  induction l with
  | nil => rfl
  | cons b t ih =>
    simp only [ordInsert]
    split <;> simp [ih]

theorem length_sortDescBy (l : List α) : (sortDescBy key l).length = l.length := by
  induction l with
  | nil => rfl
  | cons a t ih => simp [sortDescBy, length_ordInsert, ih]

theorem mem_ordInsert {x a : α} {l : List α} :
    x ∈ ordInsert key a l ↔ x = a ∨ x ∈ l := by
  induction l with
  | nil => simp [ordInsert]
  | cons b t ih =>
    simp only [ordInsert]
    split
    · simp [or_comm, or_assoc, List.mem_cons]
    · simp only [List.mem_cons, ih]
      tauto

theorem mem_sortDescBy {x : α} {l : List α} :
    x ∈ sortDescBy key l ↔ x ∈ l := by
  induction l with
  | nil => simp [sortDescBy]
  | cons a t ih => simp [sortDescBy, mem_ordInsert, ih]

theorem pairwise_le_ordInsert (a : α) (l : List α)
    (h : l.Pairwise (fun x y => key y ≤ key x)) :
    (ordInsert key a l).Pairwise (fun x y => key y ≤ key x) := by
  induction l with
  | nil => simp [ordInsert]
  | cons b t ih =>
    obtain ⟨hb, ht⟩ := List.pairwise_cons.mp h
    simp only [ordInsert]
    split
    · rename_i hba
      refine List.Pairwise.cons ?_ (List.Pairwise.cons hb ht)
      intro z hz
      rcases List.mem_cons.mp hz with rfl | hz
      · exact hba
      · exact le_trans (hb z hz) hba
    · rename_i hba
      refine List.Pairwise.cons ?_ (ih ht)
      intro z hz
      rcases (mem_ordInsert key).mp hz with rfl | hz
      · exact le_of_lt (lt_of_not_le hba)
      · exact hb z hz

theorem sortDescBy_pairwise_le (l : List α) :
    (sortDescBy key l).Pairwise (fun x y => key y ≤ key x) := by
  induction l with
  | nil => simp [sortDescBy]
  | cons a t ih => exact pairwise_le_ordInsert key a _ ih

theorem filter_ordInsert_eq (a : α) (l : List α) (q : β) (ha : key a = q) :
    (ordInsert key a l).filter (fun x => decide (key x = q)) =
      a :: l.filter (fun x => decide (key x = q)) := by
  induction l with
  | nil => simp [ordInsert, ha]
  | cons b t ih =>
    simp only [ordInsert]
    split
    · simp [List.filter_cons, ha]
    · rename_i hba
      have hbq : ¬(key b = q) := by
        intro hbq
        exact hba (le_of_eq (hbq.trans ha.symm))
      simp [List.filter_cons, hbq, ih]

theorem filter_ordInsert_ne (a : α) (l : List α) (q : β) (ha : ¬(key a = q)) :
    (ordInsert key a l).filter (fun x => decide (key x = q)) =
      l.filter (fun x => decide (key x = q)) := by
  induction l with
  | nil => simp [ordInsert, ha]
  | cons b t ih =>
    simp only [ordInsert]
    split
    · simp [List.filter_cons, ha]
    · simp [List.filter_cons, ih]

theorem filter_sortDescBy (l : List α) (q : β) :
    (sortDescBy key l).filter (fun x => decide (key x = q)) =
      l.filter (fun x => decide (key x = q)) := by
  induction l with
  | nil => simp [sortDescBy]
  | cons a t ih =>
    by_cases ha : key a = q
    · simp only [sortDescBy]
      rw [filter_ordInsert_eq key a _ q ha, ih]
      simp [List.filter_cons, ha]
    · simp only [sortDescBy]
      rw [filter_ordInsert_ne key a _ q ha, ih]
      simp [List.filter_cons, ha]

theorem pairwise_stable_ordInsert {S : α → α → Prop} (a : α) (l : List α)
    (hl : l.Pairwise (fun x y => key y < key x ∨ (key x = key y ∧ S x y)))
    (ha : ∀ y ∈ l, S a y) :
    (ordInsert key a l).Pairwise
      (fun x y => key y < key x ∨ (key x = key y ∧ S x y)) := by
  induction l with
  | nil => simp [ordInsert]
  | cons b t ih =>
    obtain ⟨hb, ht⟩ := List.pairwise_cons.mp hl
    simp only [ordInsert]
    split
    · rename_i hba
      refine List.Pairwise.cons ?_ (List.Pairwise.cons hb ht)
      intro z hz
      rcases List.mem_cons.mp hz with rfl | hz
      · rcases lt_or_eq_of_le hba with hlt | heq
        · exact Or.inl hlt
        · exact Or.inr ⟨heq.symm, ha z hz⟩
      · have hzb : key z ≤ key b := by
          rcases hb z hz with hlt | ⟨heq, _⟩
          · exact le_of_lt hlt
          · exact le_of_eq heq.symm
        rcases lt_or_eq_of_le (le_trans hzb hba) with hlt | heq
        · exact Or.inl hlt
        · exact Or.inr ⟨heq.symm, ha z (List.mem_cons_of_mem b hz)⟩
    · rename_i hba
      refine List.Pairwise.cons ?_ (ih ht (fun y hy => ha y (List.mem_cons_of_mem b hy)))
      intro z hz
      rcases (mem_ordInsert key).mp hz with rfl | hz
      · exact Or.inl (lt_of_not_le hba)
      · exact hb z hz

theorem sortDescBy_pairwise_stable {S : α → α → Prop} (l : List α)
    (h : l.Pairwise S) :
    (sortDescBy key l).Pairwise
      (fun x y => key y < key x ∨ (key x = key y ∧ S x y)) := by
  induction l with
  | nil => simp [sortDescBy]
  | cons a t ih =>
    obtain ⟨ha, ht⟩ := List.pairwise_cons.mp h
    refine pairwise_stable_ordInsert key a _ (ih ht) ?_
    intro y hy
    exact ha y ((mem_sortDescBy key).mp hy)

end SortLemmas

/-! ### Scoring lemmas -/

theorem score_sentences_go (word_scores : String → Nat) (l : List String)
    (acc : List (String × ℚ)) :
    l.foldl
      (fun scored sentence =>
        let words := tokenize_words sentence
        if words = [] then scored ++ [(sentence, 0)]
        else
          scored ++
            [(sentence,
              ((words.map (fun w => (word_scores w : ℚ))).sum) / (words.length : ℚ))])
      acc = acc ++ l.map (fun s => (s, sentenceScore word_scores s)) := by
  induction l generalizing acc with
  | nil => simp
  | cons s t ih =>
    simp only [List.foldl_cons, List.map_cons]
    rw [ih]
    by_cases h : tokenize_words s = []
    · simp [h, sentenceScore]
    · simp [h, sentenceScore]

theorem score_sentences_eq_map (l : List String) (word_scores : String → Nat) :
    score_sentences l word_scores = l.map (fun s => (s, sentenceScore word_scores s)) := by
  unfold score_sentences
  rw [score_sentences_go]
  simp

theorem length_score_sentences (l : List String) (word_scores : String → Nat) :
    (score_sentences l word_scores).length = l.length := by
  rw [score_sentences_eq_map]
  simp

/-- Claim C4: score_sentences returns one (sentence, score) pair per input
    sentence in input order; the score is exactly 0 for a sentence without
    content words and otherwise the sum of the table counts of its content
    words divided by the number of content words (the mean). -/
theorem claimC4_score_sentences (l : List String) (word_scores : String → Nat) :
    score_sentences l word_scores =
      l.map (fun s =>
        (s, if tokenize_words s = [] then (0 : ℚ)
            else ((tokenize_words s).map (fun w => (word_scores w : ℚ))).sum /
              ((tokenize_words s).length : ℚ))) := by
  rw [score_sentences_eq_map]
  rfl

/-! ### Claim C1 (top_sentences for a nonnegative limit) and claim C10
    (top_sentences for a negative limit) -/

/-- Claim C1, counterexample at a negative limit: with two equal-score
    sentences the stable descending sort keeps the original order, so the
    sorted text list is the input list; at limit -1 the code returns the
    sorted list with its last element removed, not its first (-1).toNat = 0
    entries. -/
theorem claimC1_counterexample :
    top_sentences ["A.", "B."] (fun _ => 0) (-1) = ["A."] ∧
    ((sortDescBy (fun p : String × ℚ => p.2)
        (score_sentences ["A.", "B."] (fun _ => 0))).map (fun p => p.1)).take
        ((-1 : ℤ)).toNat = ([] : List String) ∧
    top_sentences ["A.", "B."] (fun _ => 0) (-1) ≠
      ((sortDescBy (fun p : String × ℚ => p.2)
          (score_sentences ["A.", "B."] (fun _ => 0))).map (fun p => p.1)).take
          ((-1 : ℤ)).toNat := by
  refine ⟨by decide, by decide, ?_⟩
  decide

/-- Claim C1 amended: for every nonnegative limit, top_sentences returns the
    sentence texts of the stable descending sort of the scored sentences
    (descending scores, equal-score pairs in original relative order, which the
    filter characterization pins down), truncated to the first `limit` entries;
    when `limit` is at least the number of sentences all sentences are
    returned. -/
theorem claimC1_top_sentences (s : List String) (word_scores : String → Nat)
    (limit : ℤ) (h : 0 ≤ limit) :
    ∃ sorted : List (String × ℚ),
      sorted.Pairwise (fun x y => y.2 ≤ x.2) ∧
      (∀ q : ℚ, sorted.filter (fun x => decide (x.2 = q)) =
        (score_sentences s word_scores).filter (fun x => decide (x.2 = q))) ∧
      top_sentences s word_scores limit = (sorted.map (fun p => p.1)).take limit.toNat ∧
      ((s.length : ℤ) ≤ limit →
        top_sentences s word_scores limit = sorted.map (fun p => p.1)) := by
  refine ⟨sortDescBy (fun p => p.2) (score_sentences s word_scores),
    sortDescBy_pairwise_le _ _, fun q => filter_sortDescBy _ _ q, ?_, ?_⟩
  · unfold top_sentences pySliceTo
    rw [if_pos h, List.map_take]
  · intro hlen
    unfold top_sentences pySliceTo
    rw [if_pos h, List.map_take]
    refine List.take_of_length_le ?_
    have hll : (sortDescBy (fun p : String × ℚ => p.2)
        (score_sentences s word_scores)).length = s.length := by
      rw [length_sortDescBy, length_score_sentences]
    rw [List.length_map, hll]
    omega

/-- Witness for the amended claim C1 at a concrete input. -/
theorem claimC1_top_sentences_witness :
    0 ≤ (1 : ℤ) ∧
    ∃ sorted : List (String × ℚ),
      sorted.Pairwise (fun x y => y.2 ≤ x.2) ∧
      (∀ q : ℚ, sorted.filter (fun x => decide (x.2 = q)) =
        (score_sentences ["The a.", "An it."] (fun _ => 1)).filter
          (fun x => decide (x.2 = q))) ∧
      top_sentences ["The a.", "An it."] (fun _ => 1) 1 =
        (sorted.map (fun p => p.1)).take (1 : ℤ).toNat ∧
      (((["The a.", "An it."] : List String).length : ℤ) ≤ 1 →
        top_sentences ["The a.", "An it."] (fun _ => 1) 1 = sorted.map (fun p => p.1)) :=
  ⟨by decide, claimC1_top_sentences ["The a.", "An it."] (fun _ => 1) 1 (by decide)⟩

/-- Claim C10: for a negative limit -m with m < number of sentences,
    top_sentences is not empty: it returns the stable score-sorted text list
    with its last m elements removed. -/
theorem claimC10_top_sentences_neg (s : List String) (word_scores : String → Nat)
    (m : ℕ) (h1 : 1 ≤ m) (h2 : m < s.length) :
    top_sentences s word_scores (-(m : ℤ)) ≠ [] ∧
    ∃ sorted : List (String × ℚ),
      sorted.Pairwise (fun x y => y.2 ≤ x.2) ∧
      (∀ q : ℚ, sorted.filter (fun x => decide (x.2 = q)) =
        (score_sentences s word_scores).filter (fun x => decide (x.2 = q))) ∧
      top_sentences s word_scores (-(m : ℤ)) =
        (sorted.map (fun p => p.1)).take (s.length - m) := by
  have hll : (sortDescBy (fun p : String × ℚ => p.2)
      (score_sentences s word_scores)).length = s.length := by
    rw [length_sortDescBy, length_score_sentences]
  have hneg : ¬(0 ≤ -(m : ℤ)) := by omega
  have htn : ((((sortDescBy (fun p : String × ℚ => p.2)
      (score_sentences s word_scores)).length : ℤ) + -(m : ℤ))).toNat = s.length - m := by
    rw [hll]; omega
  have hmain : top_sentences s word_scores (-(m : ℤ)) =
      ((sortDescBy (fun p : String × ℚ => p.2)
        (score_sentences s word_scores)).map (fun p => p.1)).take (s.length - m) := by
    unfold top_sentences pySliceTo
    rw [if_neg hneg, htn, List.map_take]
  constructor
  · rw [hmain]
    intro hnil
    have hlen := congrArg List.length hnil
    rw [List.length_take, List.length_map, hll] at hlen
    simp only [List.length_nil] at hlen
    omega
  · exact ⟨sortDescBy (fun p => p.2) (score_sentences s word_scores),
      sortDescBy_pairwise_le _ _, fun q => filter_sortDescBy _ _ q, hmain⟩

/-- Witness for claim C10 at a concrete input. -/
theorem claimC10_top_sentences_neg_witness :
    1 ≤ 1 ∧ 1 < (["The a.", "An it."] : List String).length ∧
    top_sentences ["The a.", "An it."] (fun _ => 0) (-((1 : ℕ) : ℤ)) ≠ [] :=
  ⟨le_refl 1, by decide,
    (claimC10_top_sentences_neg ["The a.", "An it."] (fun _ => 0) 1 (le_refl 1)
      (by decide)).1⟩

/-! ### Keyword counting lemmas and claim C3 -/

theorem mem_dedupKeys {x : String} : ∀ {l : List String}, x ∈ dedupKeys l ↔ x ∈ l := by
  intro l
  induction l with
  | nil => simp [dedupKeys]
  | cons w t ih =>
    simp only [dedupKeys, List.mem_cons, List.mem_filter, bne_iff_ne, ih]
    constructor
    · rintro (rfl | ⟨hx, _⟩)
      · exact Or.inl rfl
      · exact Or.inr hx
    · rintro (rfl | hx)
      · exact Or.inl rfl
      · by_cases hxw : x = w
        · exact Or.inl hxw
        · exact Or.inr ⟨hx, hxw⟩

theorem dedupKeys_pairwise_indexOf : ∀ l : List String,
    (dedupKeys l).Pairwise (fun a b => l.indexOf a < l.indexOf b) := by
  intro l
  induction l with
  | nil => simp [dedupKeys]
  | cons w t ih =>
    simp only [dedupKeys]
    refine List.Pairwise.cons ?_ ?_
    · intro z hz
      obtain ⟨hzmem, hzw⟩ := List.mem_filter.mp hz
      have hzw' : z ≠ w := bne_iff_ne.mp hzw
      rw [List.indexOf_cons_self, List.indexOf_cons_ne t (fun h => hzw' h.symm)]
      exact Nat.succ_pos _
    · have hfil := ih.filter (fun x => x != w)
      refine hfil.imp_of_mem ?_
      intro a b ha hb hab
      have haw : a ≠ w := bne_iff_ne.mp (List.mem_filter.mp ha).2
      have hbw : b ≠ w := bne_iff_ne.mp (List.mem_filter.mp hb).2
      rw [List.indexOf_cons_ne t (fun h => haw h.symm),
        List.indexOf_cons_ne t (fun h => hbw h.symm)]
      exact Nat.succ_lt_succ hab

theorem nodup_dedupKeys (l : List String) : (dedupKeys l).Nodup := by
  refine (dedupKeys_pairwise_indexOf l).imp ?_
  intro a b hab
  intro hEq
  subst hEq
  exact lt_irrefl _ hab

theorem length_top_keywords (words : List String) (k : ℤ) :
    (top_keywords words k).length = min k.toNat (dedupKeys words).length := by
  unfold top_keywords most_common
  rw [List.length_map, List.length_take, length_sortDescBy]
  unfold counterItems
  rw [List.length_map]

theorem snd_eq_count_of_mem_counterItems {words : List String} {p : String × Nat}
    (hp : p ∈ counterItems words) : p.2 = words.count p.1 := by
  obtain ⟨w, _, rfl⟩ := List.mem_map.mp hp
  rfl

theorem counterItems_pairwise (words : List String) :
    (counterItems words).Pairwise
      (fun p q => words.indexOf p.1 < words.indexOf q.1) := by
  unfold counterItems
  rw [List.pairwise_map]
  exact dedupKeys_pairwise_indexOf words

theorem most_common_pairwise (words : List String) (k : ℤ) :
    (most_common words k).Pairwise
      (fun p q => (q.2 < p.2 ∨ (p.2 = q.2 ∧ words.indexOf p.1 < words.indexOf q.1)) ∧
        p.2 = words.count p.1 ∧ q.2 = words.count q.1) := by
  have hstable := sortDescBy_pairwise_stable (fun p : String × Nat => p.2)
    (counterItems words) (counterItems_pairwise words)
  have htaken := hstable.sublist (List.take_sublist k.toNat _)
  refine htaken.imp_of_mem ?_
  intro p q hp hq hpq
  have hp' : p ∈ counterItems words := (mem_sortDescBy _).mp
    (((List.take_sublist k.toNat _).subset) hp)
  have hq' : q ∈ counterItems words := (mem_sortDescBy _).mp
    (((List.take_sublist k.toNat _).subset) hq)
  exact ⟨hpq, snd_eq_count_of_mem_counterItems hp', snd_eq_count_of_mem_counterItems hq'⟩

/-- Claim C3: for a nonnegative limit k, top_keywords returns exactly
    min(k, number of distinct words) entries, pairwise distinct, ordered by
    descending occurrence count with equal counts ordered by first occurrence
    position. -/
theorem claimC3_top_keywords (words : List String) (k : ℤ) (hk : 0 ≤ k) :
    (top_keywords words k).length = min k.toNat (dedupKeys words).length ∧
    (top_keywords words k).Nodup ∧
    (top_keywords words k).Pairwise (fun a b =>
      words.count b < words.count a ∨
        (words.count a = words.count b ∧ words.indexOf a < words.indexOf b)) := by
  have hpair : (top_keywords words k).Pairwise (fun a b =>
      words.count b < words.count a ∨
        (words.count a = words.count b ∧ words.indexOf a < words.indexOf b)) := by
    unfold top_keywords
    rw [List.pairwise_map]
    refine (most_common_pairwise words k).imp ?_
    rintro p q ⟨hrel, hp2, hq2⟩
    rw [hp2, hq2] at hrel
    exact hrel
  refine ⟨length_top_keywords words k, ?_, hpair⟩
  refine hpair.imp ?_
  intro a b hab
  intro hEq
  subst hEq
  rcases hab with hlt | ⟨_, hidx⟩
  · exact lt_irrefl _ hlt
  · exact lt_irrefl _ hidx

/-- Witness for claim C3 at a concrete input. -/
theorem claimC3_top_keywords_witness :
    0 ≤ (2 : ℤ) ∧
    ((top_keywords ["b", "a", "c", "a"] 2).length =
        min (2 : ℤ).toNat (dedupKeys ["b", "a", "c", "a"]).length ∧
      (top_keywords ["b", "a", "c", "a"] 2).Nodup ∧
      (top_keywords ["b", "a", "c", "a"] 2).Pairwise (fun a b =>
        (["b", "a", "c", "a"] : List String).count b <
            (["b", "a", "c", "a"] : List String).count a ∨
          ((["b", "a", "c", "a"] : List String).count a =
              (["b", "a", "c", "a"] : List String).count b ∧
            (["b", "a", "c", "a"] : List String).indexOf a <
              (["b", "a", "c", "a"] : List String).indexOf b))) :=
  ⟨by decide, claimC3_top_keywords ["b", "a", "c", "a"] 2 (by decide)⟩

/-! ### Per-page note lemmas and claim C2 -/

theorem top_sentences_nil (word_scores : String → Nat) (k : ℤ) :
    top_sentences [] word_scores k = [] := by
  simp [top_sentences, score_sentences, sortDescBy, pySliceTo]

theorem top_sentences_one (s : List String) (word_scores : String → Nat)
    (hs : s ≠ []) (d : String) :
    (top_sentences s word_scores 1).headD d ∈ s ∧
    ∀ t ∈ s, sentenceScore word_scores t ≤
      sentenceScore word_scores ((top_sentences s word_scores 1).headD d) := by
  have hll : (sortDescBy (fun p : String × ℚ => p.2)
      (score_sentences s word_scores)).length = s.length := by
    rw [length_sortDescBy, length_score_sentences]
  rcases hsorted : sortDescBy (fun p : String × ℚ => p.2)
      (score_sentences s word_scores) with _ | ⟨p, tl⟩
  · rw [hsorted] at hll
    simp only [List.length_nil] at hll
    exact absurd hll.symm (by simpa using hs)
  · have htop : top_sentences s word_scores 1 = [p.1] := by
      unfold top_sentences pySliceTo
      rw [if_pos (by omega : (0:ℤ) ≤ 1), hsorted]
      rfl
    have hpmem : p ∈ score_sentences s word_scores := by
      have : p ∈ sortDescBy (fun p : String × ℚ => p.2)
          (score_sentences s word_scores) := by
        rw [hsorted]; exact List.mem_cons_self p tl
      exact (mem_sortDescBy _).mp this
    rw [score_sentences_eq_map] at hpmem
    obtain ⟨s0, hs0, hps⟩ := List.mem_map.mp hpmem
    subst hps
    rw [htop]
    simp only [List.headD_cons]
    refine ⟨hs0, ?_⟩
    intro t ht
    have htmem : (t, sentenceScore word_scores t) ∈
        sortDescBy (fun p : String × ℚ => p.2) (score_sentences s word_scores) := by
      rw [mem_sortDescBy, score_sentences_eq_map]
      exact List.mem_map.mpr ⟨t, ht, rfl⟩
    rw [hsorted] at htmem
    rcases List.mem_cons.mp htmem with hEq | htl
    · have hsc : sentenceScore word_scores t = sentenceScore word_scores s0 :=
        congrArg Prod.snd hEq
      exact le_of_eq hsc
    · have hle := List.rel_of_pairwise_cons
        (by rw [← hsorted]; exact sortDescBy_pairwise_le _ _) htl
      exact hle

theorem pageNoteFor_spec (kc : ℤ) (idx : ℕ) (text : String) :
    (pageNoteFor kc idx text).page = idx ∧
    (split_sentences text = [] →
      (pageNoteFor kc idx text).summary = "(No extractable text)") ∧
    (split_sentences text ≠ [] →
      (pageNoteFor kc idx text).summary ∈ split_sentences text ∧
      ∀ t ∈ split_sentences text,
        sentenceScore (fun w => (tokenize_words text).count w) t ≤
          sentenceScore (fun w => (tokenize_words text).count w)
            (pageNoteFor kc idx text).summary) ∧
    (pageNoteFor kc idx text).keywords = top_keywords (tokenize_words text) (min 4 kc) ∧
    (pageNoteFor kc idx text).keywords.length ≤ (min 4 kc).toNat := by
  refine ⟨rfl, ?_, ?_, rfl, ?_⟩
  · intro hempty
    show (top_sentences (split_sentences text)
      (fun w => (tokenize_words text).count w) 1).headD "(No extractable text)" = _
    rw [hempty, top_sentences_nil]
    rfl
  · intro hne
    exact top_sentences_one (split_sentences text)
      (fun w => (tokenize_words text).count w) hne "(No extractable text)"
  · show (top_keywords (tokenize_words text) (min 4 kc)).length ≤ (min 4 kc).toNat
    rw [length_top_keywords]
    exact min_le_left _ _

theorem length_pageNotesFrom (kc : ℤ) : ∀ (i : ℕ) (l : List String),
    (pageNotesFrom kc i l).length = l.length := by
  intro i l
  induction l generalizing i with
  | nil => rfl
  | cons t rest ih => simp [pageNotesFrom, ih]

theorem get_pageNotesFrom (kc : ℤ) : ∀ (l : List String) (i j : ℕ)
    (h : j < (pageNotesFrom kc i l).length) (h' : j < l.length),
    (pageNotesFrom kc i l).get ⟨j, h⟩ = pageNoteFor kc (i + j) (l.get ⟨j, h'⟩) := by
  intro l
  induction l with
  | nil => intro i j h h'; exact absurd h' (by simp)
  | cons t rest ih =>
    intro i j h h'
    cases j with
    | zero => simp [pageNotesFrom]
    | succ j =>
      have hrec : j < (pageNotesFrom kc (i + 1) rest).length := by
        rw [length_pageNotesFrom]
        simpa using h'
      have hrec' : j < rest.length := by simpa using h'
      have hrw := ih (i + 1) j hrec hrec'
      have harith : i + 1 + j = i + (j + 1) := by omega
      rw [harith] at hrw
      simp only [pageNotesFrom, List.get_cons_succ]
      exact hrw

/-- Claim C2: each page note of build_summary is computed from that page
    alone: its summary is a highest-scoring sentence of the page's own
    sentence list under the page-local frequency table (or the sentinel when
    the page has no sentences), and its keywords are the page-local top
    keywords, at most min(4, keyword_count) of them. -/
theorem claimC2_page_locality (pages : List String) (sc kc : ℤ) (i : ℕ)
    (hi : i < pages.length)
    (hn : i < (build_summary pages sc kc).page_notes.length) :
    (build_summary pages sc kc).page_notes.length = pages.length ∧
    ((build_summary pages sc kc).page_notes.get ⟨i, hn⟩).page = i + 1 ∧
    (split_sentences (pages.get ⟨i, hi⟩) = [] →
      ((build_summary pages sc kc).page_notes.get ⟨i, hn⟩).summary =
        "(No extractable text)") ∧
    (split_sentences (pages.get ⟨i, hi⟩) ≠ [] →
      ((build_summary pages sc kc).page_notes.get ⟨i, hn⟩).summary ∈
        split_sentences (pages.get ⟨i, hi⟩) ∧
      ∀ t ∈ split_sentences (pages.get ⟨i, hi⟩),
        sentenceScore (fun w => (tokenize_words (pages.get ⟨i, hi⟩)).count w) t ≤
          sentenceScore (fun w => (tokenize_words (pages.get ⟨i, hi⟩)).count w)
            ((build_summary pages sc kc).page_notes.get ⟨i, hn⟩).summary) ∧
    ((build_summary pages sc kc).page_notes.get ⟨i, hn⟩).keywords =
      top_keywords (tokenize_words (pages.get ⟨i, hi⟩)) (min 4 kc) ∧
    ((build_summary pages sc kc).page_notes.get ⟨i, hn⟩).keywords.length ≤
      (min 4 kc).toNat := by
  have hnotes : (build_summary pages sc kc).page_notes = pageNotesFrom kc 1 pages := rfl
  have hn' : i < (pageNotesFrom kc 1 pages).length := by rw [← hnotes]; exact hn
  have hget : (build_summary pages sc kc).page_notes.get ⟨i, hn⟩ =
      pageNoteFor kc (1 + i) (pages.get ⟨i, hi⟩) :=
    get_pageNotesFrom kc pages 1 i hn' hi
  have hspec := pageNoteFor_spec kc (1 + i) (pages.get ⟨i, hi⟩)
  rw [hget]
  refine ⟨?_, ?_, hspec.2.1, hspec.2.2.1, hspec.2.2.2.1, hspec.2.2.2.2⟩
  · rw [hnotes, length_pageNotesFrom]
  · rw [hspec.1, Nat.add_comm]

/-- Witness for claim C2 at a concrete two-page input. -/
theorem claimC2_page_locality_witness :
    0 < (["The a. An it.", "Be by."] : List String).length ∧
    0 < (build_summary ["The a. An it.", "Be by."] 1 3).page_notes.length ∧
    ((build_summary ["The a. An it.", "Be by."] 1 3).page_notes.length =
        (["The a. An it.", "Be by."] : List String).length ∧
      (((build_summary ["The a. An it.", "Be by."] 1 3).page_notes.get
          ⟨0, by decide⟩).page = 0 + 1 ∧
        (split_sentences ((["The a. An it.", "Be by."] : List String).get
            ⟨0, by decide⟩) = [] →
          ((build_summary ["The a. An it.", "Be by."] 1 3).page_notes.get
            ⟨0, by decide⟩).summary = "(No extractable text)") ∧
        (split_sentences ((["The a. An it.", "Be by."] : List String).get
            ⟨0, by decide⟩) ≠ [] →
          ((build_summary ["The a. An it.", "Be by."] 1 3).page_notes.get
              ⟨0, by decide⟩).summary ∈
            split_sentences ((["The a. An it.", "Be by."] : List String).get
              ⟨0, by decide⟩) ∧
          ∀ t ∈ split_sentences ((["The a. An it.", "Be by."] : List String).get
              ⟨0, by decide⟩),
            sentenceScore
                (fun w => (tokenize_words ((["The a. An it.", "Be by."] :
                  List String).get ⟨0, by decide⟩)).count w) t ≤
              sentenceScore
                (fun w => (tokenize_words ((["The a. An it.", "Be by."] :
                  List String).get ⟨0, by decide⟩)).count w)
                (((build_summary ["The a. An it.", "Be by."] 1 3).page_notes.get
                  ⟨0, by decide⟩).summary)) ∧
        ((build_summary ["The a. An it.", "Be by."] 1 3).page_notes.get
            ⟨0, by decide⟩).keywords =
          top_keywords (tokenize_words ((["The a. An it.", "Be by."] :
            List String).get ⟨0, by decide⟩)) (min 4 3 : ℤ) ∧
        ((build_summary ["The a. An it.", "Be by."] 1 3).page_notes.get
            ⟨0, by decide⟩).keywords.length ≤ (min 4 3 : ℤ).toNat)) :=
  ⟨by decide, by decide,
    claimC2_page_locality ["The a. An it.", "Be by."] 1 3 0 (by decide) (by decide)⟩

/-! ### Claim C7: note-box placement bounds -/

/-- Claim C7, counterexample: with a nonnegative margin and box dimensions not
    exceeding the page, the returned corner can still leave the page: for a
    100x100 page, a 100x100 box and margin 18 at top-left, the y coordinate is
    negative (and x + width exceeds the page width). -/
theorem claimC7_counterexample :
    (0 : ℚ) ≤ 18 ∧ (100 : ℚ) ≤ 100 ∧
    (calculate_note_box 100 100 100 100 18 "top-left").2 < 0 ∧
    (calculate_note_box 100 100 100 100 18 "top-left").1 + 100 > 100 := by
  refine ⟨by norm_num, by norm_num, ?_, ?_⟩ <;>
    · simp only [calculate_note_box, if_pos]
      norm_num

/-- Claim C7 amended: the box stays within the page for every position when
    the margin is nonnegative and each box dimension plus the margin does not
    exceed the corresponding page dimension. -/
theorem claimC7_note_box_bounds (page_width page_height box_width box_height margin : ℚ)
    (position : String) (hm : 0 ≤ margin)
    (hw : box_width + margin ≤ page_width) (hh : box_height + margin ≤ page_height) :
    0 ≤ (calculate_note_box page_width page_height box_width box_height margin
        position).1 ∧
    (calculate_note_box page_width page_height box_width box_height margin
        position).1 + box_width ≤ page_width ∧
    0 ≤ (calculate_note_box page_width page_height box_width box_height margin
        position).2 ∧
    (calculate_note_box page_width page_height box_width box_height margin
        position).2 + box_height ≤ page_height := by
  unfold calculate_note_box
  split_ifs <;>
    refine ⟨?_, ?_, ?_, ?_⟩ <;> simp only [] <;> linarith

/-- Witness for the amended claim C7 at a concrete input. -/
theorem claimC7_note_box_bounds_witness :
    (0 : ℚ) ≤ 18 ∧ (40 : ℚ) + 18 ≤ 100 ∧ (30 : ℚ) + 18 ≤ 100 ∧
    (0 ≤ (calculate_note_box 100 100 40 30 18 "top-left").1 ∧
      (calculate_note_box 100 100 40 30 18 "top-left").1 + 40 ≤ 100 ∧
      0 ≤ (calculate_note_box 100 100 40 30 18 "top-left").2 ∧
      (calculate_note_box 100 100 40 30 18 "top-left").2 + 30 ≤ 100) :=
  ⟨by norm_num, by norm_num, by norm_num,
    claimC7_note_box_bounds 100 100 40 30 18 "top-left" (by norm_num) (by norm_num)
      (by norm_num)⟩

/-! ### Tokenizer character lemmas and claim C5 -/

theorem charToNat_ofNat {n : Nat} (h : n < 55296) : (Char.ofNat n).toNat = n := by
  have hv : n.isValidChar := Or.inl (by omega)
  simp [Char.ofNat, hv, Char.toNat, Char.ofNatAux, UInt32.toNat]

theorem lowerChar_toNat_of_upper {c : Char} (h : 65 ≤ c.toNat ∧ c.toNat ≤ 90) :
    (lowerChar c).toNat = c.toNat + 32 := by
  unfold lowerChar
  rw [if_pos h]
  exact charToNat_ofNat (by omega)

theorem lowerChar_idem (c : Char) : lowerChar (lowerChar c) = lowerChar c := by
  by_cases h : 65 ≤ c.toNat ∧ c.toNat ≤ 90
  · have hlow := lowerChar_toNat_of_upper h
    unfold lowerChar
    rw [if_pos h]
    rw [if_neg ?_]
    unfold lowerChar at hlow
    rw [if_pos h] at hlow
    omega
  · unfold lowerChar
    rw [if_neg h, if_neg h]

theorem tokensGo_sound : ∀ (l cur : List Char),
    (∀ c ∈ cur, isWordChar c = true) →
    ∀ tok ∈ tokensGo cur l,
      2 ≤ tok.length ∧ ∀ c ∈ tok, isWordChar c = true ∧ (c ∈ cur ∨ c ∈ l) := by
  intro l
  induction l with
  | nil =>
    intro cur hcur tok htok
    simp only [tokensGo] at htok
    split at htok
    · rename_i hlen
      rcases List.mem_singleton.mp htok with rfl
      exact ⟨hlen, fun c hc => ⟨hcur c hc, Or.inl hc⟩⟩
    · exact absurd htok (List.not_mem_nil tok)
  | cons c rest ih =>
    intro cur hcur tok htok
    simp only [tokensGo] at htok
    split at htok
    · rename_i hword
      have hcur' : ∀ x ∈ cur ++ [c], isWordChar x = true := by
        intro x hx
        rcases List.mem_append.mp hx with hx | hx
        · exact hcur x hx
        · rcases List.mem_singleton.mp hx with rfl
          exact hword
      obtain ⟨hlen, hchars⟩ := ih (cur ++ [c]) hcur' tok htok
      refine ⟨hlen, ?_⟩
      intro x hx
      obtain ⟨hw, hmem⟩ := hchars x hx
      refine ⟨hw, ?_⟩
      rcases hmem with hx' | hx'
      · rcases List.mem_append.mp hx' with hx'' | hx''
        · exact Or.inl hx''
        · rcases List.mem_singleton.mp hx'' with rfl
          exact Or.inr (List.mem_cons_self _ _)
      · exact Or.inr (List.mem_cons_of_mem c hx')
    · rcases List.mem_append.mp htok with htok' | htok'
      · split at htok'
        · rename_i hlen
          rcases List.mem_singleton.mp htok' with rfl
          exact ⟨hlen, fun x hx => ⟨hcur x hx, Or.inl hx⟩⟩
        · exact absurd htok' (List.not_mem_nil tok)
      · obtain ⟨hlen, hchars⟩ := ih [] (by intro x hx; exact absurd hx (List.not_mem_nil x))
          tok htok'
        refine ⟨hlen, ?_⟩
        intro x hx
        obtain ⟨hw, hmem⟩ := hchars x hx
        refine ⟨hw, ?_⟩
        rcases hmem with hx' | hx'
        · exact absurd hx' (List.not_mem_nil x)
        · exact Or.inr (List.mem_cons_of_mem c hx')

/-- Claim C5, counterexample: a token consisting only of apostrophes (hence
    containing no letter at all) is emitted by tokenize_words. -/
theorem claimC5_counterexample :
    tokenize_words (String.mk [apostrophe, apostrophe]) =
      [String.mk [apostrophe, apostrophe]] ∧
    ∀ c ∈ (String.mk [apostrophe, apostrophe]).data,
      ¬((97 ≤ c.toNat ∧ c.toNat ≤ 122) ∨ (65 ≤ c.toNat ∧ c.toNat ≤ 90)) := by
  refine ⟨by decide, by decide⟩

/-- Claim C5 amended: every token emitted by tokenize_words is a lower-cased
    string (fixed by ASCII lower-casing) of length at least two whose
    characters all belong to the letters-and-apostrophe class, and is not a
    stop word.  Tokens consisting only of apostrophes can be emitted, so the
    claim's exclusion of letterless tokens is dropped. -/
theorem claimC5_tokenize_sound (text : String) (t : String)
    (ht : t ∈ tokenize_words text) :
    t ∉ STOPWORDS ∧ 2 ≤ t.data.length ∧
    (∀ c ∈ t.data, isWordChar c = true) ∧
    (∀ c ∈ t.data, lowerChar c = c) := by
  unfold tokenize_words at ht
  obtain ⟨hmem, hstop⟩ := List.mem_filter.mp ht
  have hstop' : t ∉ STOPWORDS := by
    intro hin
    rw [Bool.not_eq_eq_eq_not, Bool.not_true] at hstop
    exact absurd hstop (by simpa using hin)
  obtain ⟨tok, htok, rfl⟩ := List.mem_map.mp hmem
  obtain ⟨hlen, hchars⟩ := tokensGo_sound (text.data.map lowerChar) []
    (by intro x hx; exact absurd hx (List.not_mem_nil x)) tok htok
  refine ⟨hstop', hlen, ?_, ?_⟩
  · intro c hc
    exact (hchars c hc).1
  · intro c hc
    rcases (hchars c hc).2 with hc' | hc'
    · exact absurd hc' (List.not_mem_nil c)
    · obtain ⟨c0, _, rfl⟩ := List.mem_map.mp hc'
      exact lowerChar_idem c0

/-- Witness for the amended claim C5 at a concrete input. -/
theorem claimC5_tokenize_sound_witness :
    "hi" ∈ tokenize_words "Hi there" ∧
    ("hi" ∉ STOPWORDS ∧ 2 ≤ "hi".data.length ∧
      (∀ c ∈ "hi".data, isWordChar c = true) ∧
      (∀ c ∈ "hi".data, lowerChar c = c)) :=
  ⟨by decide, claimC5_tokenize_sound "Hi there" "hi" (by decide)⟩

/-! ### Claim C6: build_summary on all-empty pages -/

theorem tokensGo_nil_of_no_word : ∀ l : List Char,
    (∀ c ∈ l, isWordChar c = false) → tokensGo [] l = [] := by
  intro l
  induction l with
  | nil => intro _; rfl
  | cons c rest ih =>
    intro h
    have hc : isWordChar c = false := h c (List.mem_cons_self _ _)
    simp only [tokensGo, hc]
    simpa using ih (fun x hx => h x (List.mem_cons_of_mem c hx))

theorem pyIsSpace_not_word {c : Char} (h : pyIsSpace c = true) :
    isWordChar (lowerChar c) = false := by
  have hc : ((((c = ' ' ∨ c = '\t') ∨ c = '\n') ∨ c = '\x0d') ∨ c = '\x0b') ∨
      c = '\x0c' := by
    simpa [pyIsSpace] using h
  rcases hc with ((((rfl | rfl) | rfl) | rfl) | rfl) | rfl <;> decide

theorem tokenize_words_all_ws (t : String) (h : ∀ c ∈ t.data, pyIsSpace c = true) :
    tokenize_words t = [] := by
  unfold tokenize_words
  rw [tokensGo_nil_of_no_word]
  · rfl
  · intro c hc
    obtain ⟨c0, hc0, rfl⟩ := List.mem_map.mp hc
    exact pyIsSpace_not_word (h c0 hc0)

theorem split_sentences_all_ws (t : String) (h : ∀ c ∈ t.data, pyIsSpace c = true) :
    split_sentences t = [] := by
  unfold split_sentences pyStrip
  have hdrop : t.data.dropWhile pyIsSpace = [] := List.dropWhile_eq_nil_iff.mpr h
  rw [hdrop]
  rfl

theorem pyJoin_newline_all_ws (n : ℕ) :
    ∀ c ∈ (pyJoin "\n" (List.replicate n "")).data, pyIsSpace c = true := by
  have haux : ∀ (rest : List String) (acc : String),
      (∀ s ∈ rest, s = "") → (∀ c ∈ acc.data, pyIsSpace c = true) →
      ∀ c ∈ (rest.foldl (fun a y => a ++ "\n" ++ y) acc).data, pyIsSpace c = true := by
    intro rest
    induction rest with
    | nil => intro acc _ hacc; exact hacc
    | cons y t ih =>
      intro acc hall hacc
      have hy : y = "" := hall y (List.mem_cons_self _ _)
      subst hy
      refine ih (acc ++ "\n" ++ "") (fun s hs => hall s (List.mem_cons_of_mem _ hs)) ?_
      intro c hc
      have hc' : c ∈ acc.data ++ ['\n'] := by
        simpa [String.data_append] using hc
      rcases List.mem_append.mp hc' with hc'' | hc''
      · exact hacc c hc''
      · rcases List.mem_singleton.mp hc'' with rfl
        decide
  cases n with
  | zero => intro c hc; exact absurd hc (by simp [pyJoin])
  | succ m =>
    simp only [List.replicate_succ, pyJoin]
    exact haux (List.replicate m "") "" (fun s hs => List.eq_of_mem_replicate hs)
      (by intro c hc; exact absurd hc (by simp))

theorem pageNoteFor_empty (kc : ℤ) (idx : ℕ) :
    pageNoteFor kc idx "" =
      { page := idx, summary := "(No extractable text)", keywords := [] } := by
  have hsplit : split_sentences "" = [] := rfl
  have htok : tokenize_words "" = [] := rfl
  have hkw : top_keywords [] (min 4 kc) = [] := by
    unfold top_keywords most_common counterItems dedupKeys
    simp [sortDescBy]
  simp only [pageNoteFor, hsplit, htok, top_sentences_nil, hkw, List.headD_nil]

theorem pageNotesFrom_replicate_empty (kc : ℤ) : ∀ (n i : ℕ),
    pageNotesFrom kc i (List.replicate n "") =
      (List.range n).map (fun j =>
        { page := i + j, summary := "(No extractable text)", keywords := [] }) := by
  intro n
  induction n with
  | zero => intro i; rfl
  | succ m ih =>
    intro i
    simp only [List.replicate_succ, pageNotesFrom, pageNoteFor_empty,
      List.range_succ_eq_map, List.map_cons, List.map_map]
    congr 1
    rw [ih (i + 1)]
    refine List.map_congr_left ?_
    intro j hj
    simp only [Function.comp]
    have harith : i + 1 + j = i + (j + 1) := by omega
    rw [harith]

/-- Claim C6: on a list of n empty pages, build_summary returns an empty
    overall summary, empty key points, and n page notes in page order, each
    with the sentinel summary and no keywords; totality of the embedding
    reflects that no exception is raised. -/
theorem claimC6_empty_pages (n : ℕ) (sc kc : ℤ) :
    build_summary (List.replicate n "") sc kc =
      { overall_summary := [], key_points := [],
        page_notes := (List.range n).map (fun i =>
          { page := i + 1, summary := "(No extractable text)", keywords := [] }) } := by
  have hws := pyJoin_newline_all_ws n
  have hsplit := split_sentences_all_ws _ hws
  have htok := tokenize_words_all_ws _ hws
  have hkw : top_keywords [] kc = [] := by
    unfold top_keywords most_common counterItems dedupKeys
    simp [sortDescBy]
  simp only [build_summary, hsplit, htok, top_sentences_nil, hkw,
    pageNotesFrom_replicate_empty]
  congr 1
  refine List.map_congr_left ?_
  intro j hj
  rw [Nat.add_comm]

/-! ### Cleaned-text predicates for the sentence splitter -/

/-- The first character, when present, is not whitespace. -/
def NoLeadWs (l : List Char) : Prop := ∀ c, l.head? = some c → pyIsSpace c = false

/-- The last character, when present, is not whitespace. -/
def NoTrailWs (l : List Char) : Prop := ∀ c, l.getLast? = some c → pyIsSpace c = false

/-- Every whitespace character is a plain space and no two adjacent
    characters are both whitespace. -/
def SingleSpaced (l : List Char) : Prop :=
  (∀ c ∈ l, pyIsSpace c = true → c = ' ') ∧
  l.Chain' (fun a b => ¬(pyIsSpace a = true ∧ pyIsSpace b = true))

/-- The shape of the cleaned text produced by strip plus whitespace
    collapsing. -/
def CleanText (l : List Char) : Prop := SingleSpaced l ∧ NoLeadWs l ∧ NoTrailWs l

theorem noLead_dropWhile (l : List Char) : NoLeadWs (l.dropWhile pyIsSpace) := by
  induction l with
  | nil => intro c hc; simp [List.dropWhile] at hc
  | cons a t ih =>
    intro c hc
    rw [List.dropWhile_cons] at hc
    by_cases ha : pyIsSpace a = true
    · rw [if_pos ha] at hc
      exact ih c hc
    · rw [if_neg ha] at hc
      rw [List.head?_cons, Option.some_inj] at hc
      subst hc
      exact Bool.eq_false_iff.mpr ha

theorem noTrail_stripEnd (l : List Char) : NoTrailWs (stripEnd l) := by
  induction l with
  | nil => intro c hc; simp [stripEnd] at hc
  | cons a t ih =>
    intro c hc
    rcases hst : stripEnd t with _ | ⟨r0, rs⟩
    · simp only [stripEnd, hst] at hc
      split at hc
      · simp at hc
      · rename_i ha
        rw [List.getLast?_singleton, Option.some_inj] at hc
        subst hc
        exact Bool.eq_false_iff.mpr ha
    · simp only [stripEnd, hst] at hc
      rw [List.getLast?_cons_cons] at hc
      exact ih c (by rw [hst]; exact hc)

theorem head?_stripEnd (l : List Char) (c : Char) (hc : (stripEnd l).head? = some c) :
    l.head? = some c := by
  cases l with
  | nil => simp [stripEnd] at hc
  | cons a t =>
    rcases hst : stripEnd t with _ | ⟨r0, rs⟩ <;> simp only [stripEnd, hst] at hc
    · split at hc
      · simp at hc
      · rw [List.head?_cons, Option.some_inj] at hc
        subst hc
        exact List.head?_cons
    · rw [List.head?_cons, Option.some_inj] at hc
      subst hc
      exact List.head?_cons

theorem noLead_pyStrip (l : List Char) : NoLeadWs (pyStrip l) := by
  intro c hc
  exact noLead_dropWhile l c (head?_stripEnd _ c hc)

theorem noTrail_pyStrip (l : List Char) : NoTrailWs (pyStrip l) :=
  noTrail_stripEnd _

theorem collapseWs_head? : ∀ (l : List Char) (c : Char), l.head? = some c →
    (collapseWs l).head? = some (if pyIsSpace c = true then ' ' else c) := by
  intro l
  induction l with
  | nil => intro c hc; simp at hc
  | cons a t ih =>
    intro c hc
    rw [List.head?_cons, Option.some_inj] at hc
    subst hc
    cases t with
    | nil => simp [collapseWs]
    | cons d rest =>
      by_cases hboth : (pyIsSpace a && pyIsSpace d) = true
      · obtain ⟨ha, hd⟩ := Bool.and_eq_true_iff.mp hboth
        have hih := ih d List.head?_cons
        rw [hd] at hih
        simp only [collapseWs]
        rw [if_pos hboth, hih, ha]
        simp
      · simp only [collapseWs]
        rw [if_neg hboth]
        exact List.head?_cons

theorem collapseWs_all_space : ∀ (l : List Char), ∀ c ∈ collapseWs l,
    pyIsSpace c = true → c = ' ' := by
  intro l
  induction l with
  | nil => intro c hc; simp [collapseWs] at hc
  | cons a t ih =>
    intro c hc hws
    cases t with
    | nil =>
      simp only [collapseWs, List.mem_singleton] at hc
      subst hc
      by_cases ha : pyIsSpace a = true
      · rw [if_pos ha]
      · rw [if_neg ha] at hws ⊢
        exact absurd hws ha
    | cons d rest =>
      by_cases hboth : (pyIsSpace a && pyIsSpace d) = true
      · simp only [collapseWs, hboth, if_true] at hc
        exact ih c hc hws
      · simp only [collapseWs, hboth, if_false, Bool.false_eq_true,
          List.mem_cons] at hc
        rcases hc with rfl | hc
        · by_cases ha : pyIsSpace a = true
          · rw [if_pos ha]
          · rw [if_neg ha] at hws
            exact absurd hws ha
        · exact ih c hc hws

theorem collapseWs_chain' : ∀ l : List Char,
    (collapseWs l).Chain' (fun a b => ¬(pyIsSpace a = true ∧ pyIsSpace b = true)) := by
  intro l
  induction l with
  | nil => simp [collapseWs]
  | cons a t ih =>
    cases t with
    | nil => simp only [collapseWs]; exact List.chain'_singleton _
    | cons d rest =>
      by_cases hboth : (pyIsSpace a && pyIsSpace d) = true
      · simpa only [collapseWs, hboth, if_true] using ih
      · simp only [collapseWs, hboth, if_false, Bool.false_eq_true]
        refine List.chain'_cons'.mpr ⟨?_, ih⟩
        intro y hy
        have hhead := collapseWs_head? (d :: rest) d List.head?_cons
        rw [hhead, Option.mem_def, Option.some_inj] at hy
        subst hy
        rintro ⟨he, hy'⟩
        by_cases ha : pyIsSpace a = true
        · have hd : pyIsSpace d = false := by
            rcases Bool.eq_false_or_eq_true (pyIsSpace d) with hd | hd
            · exact absurd (Bool.and_eq_true_iff.mpr ⟨ha, hd⟩) hboth
            · exact hd
          simp only [hd] at hy'
          simp at hy'
          rw [hd] at hy'
          exact absurd hy' (by decide)
        · rw [if_neg ha] at he
          exact ha he

theorem collapseWs_ne_nil : ∀ l : List Char, l ≠ [] → collapseWs l ≠ [] := by
  intro l
  induction l with
  | nil => intro h; exact absurd rfl h
  | cons a t ih =>
    intro _
    cases t with
    | nil => simp [collapseWs]
    | cons d rest =>
      by_cases hboth : (pyIsSpace a && pyIsSpace d) = true
      · simp only [collapseWs, hboth, if_true]
        exact ih (by simp)
      · simp [collapseWs, hboth]

theorem noTrail_collapseWs : ∀ l : List Char, NoTrailWs l → NoTrailWs (collapseWs l) := by
  intro l
  induction l with
  | nil => intro _ c hc; simp [collapseWs] at hc
  | cons a t ih =>
    intro h c hc
    cases t with
    | nil =>
      simp only [collapseWs] at hc
      rw [List.getLast?_singleton, Option.some_inj] at hc
      subst hc
      have ha := h a (List.getLast?_singleton a)
      rw [if_neg (by rw [ha]; simp)]
      exact ha
    | cons d rest =>
      have ht : NoTrailWs (d :: rest) := by
        intro x hx
        exact h x (by rw [List.getLast?_cons_cons]; exact hx)
      by_cases hboth : (pyIsSpace a && pyIsSpace d) = true
      · simp only [collapseWs, hboth, if_true] at hc
        exact ih ht c hc
      · simp only [collapseWs, hboth, if_false, Bool.false_eq_true] at hc
        rcases hcol : collapseWs (d :: rest) with _ | ⟨x, xs⟩
        · exact absurd hcol (collapseWs_ne_nil (d :: rest) (by simp))
        · rw [hcol, List.getLast?_cons_cons] at hc
          exact ih ht c (by rw [hcol]; exact hc)

theorem cleanText_collapse_pyStrip (t : List Char) :
    CleanText (collapseWs (pyStrip t)) := by
  refine ⟨⟨collapseWs_all_space _, collapseWs_chain' _⟩, ?_, ?_⟩
  · intro c hc
    rcases hps : pyStrip t with _ | ⟨a, t'⟩
    · rw [hps] at hc
      simp [collapseWs] at hc
    · rw [hps] at hc
      have ha : pyIsSpace a = false := noLead_pyStrip t a (by rw [hps]; exact List.head?_cons)
      have hh := collapseWs_head? (a :: t') a List.head?_cons
      rw [if_neg (by rw [ha]; simp)] at hh
      rw [hh, Option.some_inj] at hc
      subst hc
      exact ha
  · exact noTrail_collapseWs _ (noTrail_pyStrip t)

/-! ### Cleaned text is a fixed point of strip and collapse -/

theorem dropWhile_id_of_noLead (l : List Char) (h : NoLeadWs l) :
    l.dropWhile pyIsSpace = l := by
  cases l with
  | nil => rfl
  | cons a t =>
    have ha := h a List.head?_cons
    rw [List.dropWhile_cons, if_neg (by rw [ha]; simp)]

theorem stripEnd_id_of_noTrail : ∀ l : List Char, NoTrailWs l → stripEnd l = l := by
  intro l
  induction l with
  | nil => intro _; rfl
  | cons a t ih =>
    intro h
    cases t with
    | nil =>
      have ha := h a (List.getLast?_singleton a)
      simp only [stripEnd]
      rw [if_neg (by rw [ha]; simp)]
    | cons d rest =>
      have ht : NoTrailWs (d :: rest) := by
        intro x hx
        exact h x (by rw [List.getLast?_cons_cons]; exact hx)
      have hid := ih ht
      show (match stripEnd (d :: rest) with
        | [] => if pyIsSpace a = true then [] else [a]
        | r => a :: r) = a :: d :: rest
      rw [hid]

theorem collapseWs_id_of_singleSpaced : ∀ l : List Char,
    SingleSpaced l → collapseWs l = l := by
  intro l
  induction l with
  | nil => intro _; rfl
  | cons a t ih =>
    intro h
    cases t with
    | nil =>
      simp only [collapseWs]
      by_cases ha : pyIsSpace a = true
      · rw [if_pos ha, h.1 a (List.mem_singleton.mpr rfl) ha]
      · rw [if_neg ha]
    | cons d rest =>
      have hnot : ¬(pyIsSpace a = true ∧ pyIsSpace d = true) :=
        (List.chain'_cons.mp h.2).1
      have hboth : ¬(pyIsSpace a && pyIsSpace d) = true := by
        intro hb
        exact hnot (Bool.and_eq_true_iff.mp hb)
      have ht : SingleSpaced (d :: rest) :=
        ⟨fun c hc hw => h.1 c (List.mem_cons_of_mem a hc) hw,
          (List.chain'_cons.mp h.2).2⟩
      simp only [collapseWs]
      rw [if_neg hboth, ih ht]
      by_cases ha : pyIsSpace a = true
      · rw [if_pos ha, h.1 a (List.mem_cons_self a _) ha]
      · rw [if_neg ha]

theorem pyStrip_id_of_clean (l : List Char) (h : CleanText l) : pyStrip l = l := by
  unfold pyStrip
  rw [dropWhile_id_of_noLead l h.2.1, stripEnd_id_of_noTrail l h.2.2]

/-! ### Unfolding lemmas for the sentence splitter -/

theorem goSplit_nil (acc : List Char) (delim : Bool) :
    goSplit acc delim [] = [acc.reverse] := rfl

theorem goSplit_cons_not_ws (acc : List Char) (delim : Bool) (c : Char)
    (rest : List Char) (h : pyIsSpace c = false) :
    goSplit acc delim (c :: rest) = goSplit (c :: acc) false rest := by
  simp [goSplit, h]

theorem goSplit_cons_ws_term (p : Char) (acc' : List Char) (c : Char)
    (rest : List Char) (hws : pyIsSpace c = true) (ht : isTermChar p = true) :
    goSplit (p :: acc') false (c :: rest) =
      (p :: acc').reverse :: goSplit [] true rest := by
  simp [goSplit, hws, ht]

theorem goSplit_cons_ws_noterm (p : Char) (acc' : List Char) (c : Char)
    (rest : List Char) (hws : pyIsSpace c = true) (ht : isTermChar p = false) :
    goSplit (p :: acc') false (c :: rest) = goSplit (c :: p :: acc') false rest := by
  simp [goSplit, hws, ht]

theorem goSplit_delim_skip (c : Char) (rest : List Char) (acc : List Char)
    (hws : pyIsSpace c = true) :
    goSplit acc true (c :: rest) = goSplit acc true rest := by
  simp [goSplit, hws]

theorem goSplit_ne_nil : ∀ (l acc : List Char) (delim : Bool),
    goSplit acc delim l ≠ [] := by
  intro l
  induction l with
  | nil => intro acc delim; simp [goSplit_nil]
  | cons c rest ih =>
    intro acc delim
    by_cases hws : pyIsSpace c = true
    · cases delim with
      | true => rw [goSplit_delim_skip c rest acc hws]; exact ih acc true
      | false =>
        rcases acc with _ | ⟨p, acc'⟩
        · simp only [goSplit, hws, if_pos]
          exact ih [c] false
        · by_cases ht : isTermChar p = true
          · rw [goSplit_cons_ws_term p acc' c rest hws ht]
            simp
          · rw [goSplit_cons_ws_noterm p acc' c rest hws
              (Bool.eq_false_iff.mpr ht)]
            exact ih (c :: p :: acc') false
    · rw [goSplit_cons_not_ws acc delim c rest (Bool.eq_false_iff.mpr hws)]
      exact ih (c :: acc) false

/-! ### The splitter master lemma -/

/-- Joining character-level pieces with single spaces. -/
def joinChars : List (List Char) → List Char
  | [] => []
  | [p] => p
  | p :: q :: rest => p ++ ' ' :: joinChars (q :: rest)

theorem isTermChar_not_space {c : Char} (h : isTermChar c = true) :
    pyIsSpace c = false := by
  have hc : ((c = '.' ∨ c = '!') ∨ c = '?') := by
    simpa [isTermChar] using h
  rcases hc with (rfl | rfl) | rfl <;> decide

theorem goSplit_delim_exit (d : Char) (rest : List Char) (hd : pyIsSpace d = false) :
    goSplit [] true (d :: rest) = goSplit [d] false rest := by
  simp [goSplit, hd]

theorem goSplit_master : ∀ (N : ℕ) (l acc : List Char), l.length ≤ N →
    CleanText (acc.reverse ++ l) → acc.reverse ++ l ≠ [] →
    joinChars (goSplit acc false l) = acc.reverse ++ l ∧
    ∀ p ∈ goSplit acc false l, p ≠ [] ∧ CleanText p := by
  intro N
  induction N with
  | zero =>
    intro l acc hlen hclean hne
    have hl : l = [] := by
      cases l with
      | nil => rfl
      | cons c t => simp at hlen
    subst hl
    rw [goSplit_nil]
    rw [List.append_nil] at hclean hne
    refine ⟨by simp [joinChars], ?_⟩
    intro p hp
    rcases List.mem_singleton.mp hp with rfl
    exact ⟨hne, hclean⟩
  | succ N ihN =>
    intro l acc hlen hclean hne
    cases l with
    | nil =>
      rw [goSplit_nil]
      rw [List.append_nil] at hclean hne
      refine ⟨by simp [joinChars], ?_⟩
      intro p hp
      rcases List.mem_singleton.mp hp with rfl
      exact ⟨hne, hclean⟩
    | cons c rest =>
      by_cases hws : pyIsSpace c = true
      · rcases acc with _ | ⟨p, acc'⟩
        · exfalso
          have hlead := hclean.2.1 c (by simp)
          exact absurd hws (Bool.eq_false_iff.mp hlead)
        · by_cases hterm : isTermChar p = true
          · rcases rest with _ | ⟨d, rest₂⟩
            · exfalso
              have hlast := hclean.2.2 c (List.getLast?_concat _)
              exact absurd hws (Bool.eq_false_iff.mp hlast)
            · have hchain : (c :: d :: rest₂).Chain'
                  (fun a b => ¬(pyIsSpace a = true ∧ pyIsSpace b = true)) :=
                (List.chain'_append.mp hclean.1.2).2.1
              have hcd := (List.chain'_cons.mp hchain).1
              have hd : pyIsSpace d = false := by
                by_cases hd' : pyIsSpace d = true
                · exact absurd ⟨hws, hd'⟩ hcd
                · exact Bool.eq_false_iff.mpr hd'
              have hcsp : c = ' ' := hclean.1.1 c (by simp) hws
              have hlen₂ : rest₂.length ≤ N := by
                simp only [List.length_cons] at hlen
                omega
              have hcleansub : CleanText ([d].reverse ++ rest₂) := by
                simp only [List.reverse_singleton, List.singleton_append]
                refine ⟨⟨?_, (List.chain'_cons.mp hchain).2⟩, ?_, ?_⟩
                · intro x hx hwx
                  refine hclean.1.1 x ?_ hwx
                  exact List.mem_append_right _ (List.mem_cons_of_mem c hx)
                · intro x hx
                  rw [List.head?_cons, Option.some_inj] at hx
                  subst hx
                  exact hd
                · intro x hx
                  refine hclean.2.2 x ?_
                  rw [List.getLast?_append_of_ne_nil _ (by simp),
                    List.getLast?_cons_cons]
                  exact hx
              obtain ⟨hjoin, hpieces⟩ := ihN rest₂ [d] hlen₂ hcleansub (by simp)
              rw [goSplit_cons_ws_term p acc' c (d :: rest₂) hws hterm,
                goSplit_delim_exit d rest₂ hd]
              constructor
              · rcases hps : goSplit [d] false rest₂ with _ | ⟨y, ys⟩
                · exact absurd hps (goSplit_ne_nil rest₂ [d] false)
                · rw [hps] at hjoin
                  show (p :: acc').reverse ++ ' ' :: joinChars (y :: ys) =
                    (p :: acc').reverse ++ c :: d :: rest₂
                  rw [hjoin]
                  simp [hcsp]
              · intro q hq
                rcases List.mem_cons.mp hq with rfl | hq
                · refine ⟨by simp, ⟨?_, (List.chain'_append.mp hclean.1.2).1⟩, ?_, ?_⟩
                  · intro x hx hwx
                    exact hclean.1.1 x (List.mem_append_left _ hx) hwx
                  · intro x hx
                    refine hclean.2.1 x ?_
                    rcases hA : (p :: acc').reverse with _ | ⟨a0, A'⟩
                    · exact absurd hA (by simp)
                    · rw [hA] at hx
                      rw [List.head?_cons, Option.some_inj] at hx
                      subst hx
                      simp
                  · intro x hx
                    rw [List.reverse_cons, List.getLast?_concat, Option.some_inj] at hx
                    subst hx
                    exact isTermChar_not_space hterm
                · exact hpieces q hq
          · have hterm' : isTermChar p = false := Bool.eq_false_iff.mpr hterm
            rw [goSplit_cons_ws_noterm p acc' c rest hws hterm']
            have hcombined : (c :: p :: acc').reverse ++ rest =
                (p :: acc').reverse ++ c :: rest := by
              simp [List.reverse_cons, List.append_assoc]
            have hlen' : rest.length ≤ N := by
              simp only [List.length_cons] at hlen
              omega
            obtain ⟨hjoin, hpieces⟩ := ihN rest (c :: p :: acc') hlen'
              (by rw [hcombined]; exact hclean) (by rw [hcombined]; exact hne)
            exact ⟨by rw [hjoin, hcombined], hpieces⟩
      · have hws' : pyIsSpace c = false := Bool.eq_false_iff.mpr hws
        rw [goSplit_cons_not_ws acc false c rest hws']
        have hcombined : (c :: acc).reverse ++ rest = acc.reverse ++ c :: rest := by
          simp [List.reverse_cons, List.append_assoc]
        have hlen' : rest.length ≤ N := by
          simp only [List.length_cons] at hlen
          omega
        obtain ⟨hjoin, hpieces⟩ := ihN rest (c :: acc) hlen'
          (by rw [hcombined]; exact hclean) (by rw [hcombined]; exact hne)
        exact ⟨by rw [hjoin, hcombined], hpieces⟩

/-! ### Claims C8 and C9 -/

theorem joinChars_append_head (a b : List Char) (t : List (List Char)) :
    joinChars ((a ++ b) :: t) = a ++ joinChars (b :: t) := by
  cases t with
  | nil => rfl
  | cons r t' => simp [joinChars, List.append_assoc]

theorem joinChars_cons_head (c : Char) (b : List Char) (t : List (List Char)) :
    joinChars ((c :: b) :: t) = c :: joinChars (b :: t) := by
  cases t with
  | nil => rfl
  | cons r t' => simp [joinChars]

theorem pyJoin_foldl_data : ∀ (rest : List (List Char)) (acc : String),
    (List.foldl (fun a y => a ++ " " ++ y) acc
      (rest.map (fun l => String.mk l))).data = joinChars (acc.data :: rest) := by
  intro rest
  induction rest with
  | nil => intro acc; rfl
  | cons q t ih =>
    intro acc
    simp only [List.map_cons, List.foldl_cons]
    rw [ih]
    have hdata : (acc ++ " " ++ String.mk q).data = (acc.data ++ ' ' :: q) := by
      have hsp : (" " : String).data = [' '] := by decide
      rw [String.data_append, String.data_append, hsp]
      simp
    rw [hdata, joinChars_append_head, joinChars_cons_head]
    cases t with
    | nil => rfl
    | cons r t' => simp [joinChars]

theorem pyJoin_space_data (ps : List (List Char)) :
    (pyJoin " " (ps.map (fun l => String.mk l))).data = joinChars ps := by
  cases ps with
  | nil => rfl
  | cons x rest =>
    simp only [List.map_cons, pyJoin]
    exact pyJoin_foldl_data rest (String.mk x)

/-- Claim C9: every sentence returned by split_sentences is nonempty, has no
    leading or trailing whitespace character, and contains no two adjacent
    whitespace characters. -/
theorem claimC9_sentence_shape (text : String) (s : String)
    (hs : s ∈ split_sentences text) :
    s.data ≠ [] ∧ NoLeadWs s.data ∧ NoTrailWs s.data ∧
    s.data.Chain' (fun a b => ¬(pyIsSpace a = true ∧ pyIsSpace b = true)) := by
  unfold split_sentences at hs
  by_cases hcl : collapseWs (pyStrip text.data) = []
  · rw [if_pos hcl] at hs
    exact absurd hs (List.not_mem_nil s)
  · rw [if_neg hcl] at hs
    obtain ⟨p, hp, rfl⟩ := List.mem_map.mp hs
    have hclean := cleanText_collapse_pyStrip text.data
    obtain ⟨_, hpieces⟩ := goSplit_master (collapseWs (pyStrip text.data)).length
      (collapseWs (pyStrip text.data)) [] (le_refl _) (by simpa using hclean)
      (by simpa using hcl)
    obtain ⟨hne, hcleanp⟩ := hpieces p hp
    exact ⟨hne, hcleanp.2.1, hcleanp.2.2, hcleanp.1.2⟩

/-- Witness for claim C9 at a concrete input. -/
theorem claimC9_sentence_shape_witness :
    "Hi there." ∈ split_sentences "Hi there. Bye." ∧
    (("Hi there." : String).data ≠ [] ∧ NoLeadWs ("Hi there." : String).data ∧
      NoTrailWs ("Hi there." : String).data ∧
      ("Hi there." : String).data.Chain'
        (fun a b => ¬(pyIsSpace a = true ∧ pyIsSpace b = true))) :=
  ⟨by decide, claimC9_sentence_shape "Hi there. Bye." "Hi there." (by decide)⟩

/-- Claim C8: re-splitting the single-space join of the sentences of any text
    yields the same sentence sequence. -/
theorem claimC8_split_join (text : String) :
    split_sentences (pyJoin " " (split_sentences text)) = split_sentences text := by
  by_cases hcl : collapseWs (pyStrip text.data) = []
  · have h1 : split_sentences text = [] := by
      unfold split_sentences
      rw [if_pos hcl]
    rw [h1]
    rfl
  · have hclean := cleanText_collapse_pyStrip text.data
    obtain ⟨hjoin, _⟩ := goSplit_master (collapseWs (pyStrip text.data)).length
      (collapseWs (pyStrip text.data)) [] (le_refl _) (by simpa using hclean)
      (by simpa using hcl)
    have hsplit : split_sentences text =
        (goSplit [] false (collapseWs (pyStrip text.data))).map (fun l => String.mk l) := by
      unfold split_sentences
      rw [if_neg hcl]
    have hc2 : collapseWs (pyStrip (pyJoin " "
        ((goSplit [] false (collapseWs (pyStrip text.data))).map
          (fun l => String.mk l))).data) = collapseWs (pyStrip text.data) := by
      rw [pyJoin_space_data, hjoin]
      simp only [List.reverse_nil, List.nil_append]
      rw [pyStrip_id_of_clean _ hclean, collapseWs_id_of_singleSpaced _ hclean.1]
    rw [hsplit]
    unfold split_sentences
    simp only [hc2]
    rw [if_neg hcl]

end PdfSummary
